import Mathlib

/-!
Verification of the `TreeData` component of the world-tree tree-availability
service (`crates/tree_availability/src/world_tree/tree_data.rs`).

`TreeData` holds a current Poseidon Merkle tree plus a bounded FIFO of
historical tree versions (newest at the front) and serves inclusion proofs
against either the current root or a retained historical root.

The underlying `PoseidonTree` comes from an external Merkle-tree library.
Following its documented contract, a tree version is embedded as its depth
together with its list of `2 ^ depth` leaves; the Poseidon hash is an
external pure function `H : Hash → Hash → Hash`, so every root- or
proof-producing definition is parametrised by `H`.
-/

namespace WorldTree

/-- Field elements (`Hash` in the source). The distinguished zero value is
the empty-leaf sentinel and the deletion marker. -/
abbrev Hash := Nat

/-- `Hash::ZERO`. -/
def ZERO : Hash := 0

/-- A Merkle tree version: its fixed depth and its full leaf vector
(index order, length `2 ^ depth` for well-formed trees). -/
structure PoseidonTree where
  depth : Nat
  leaves : List Hash
deriving DecidableEq

/-- `tree.update(i, v)`: a new version equal to the receiver except leaf `i`
is `v` (out-of-range updates are excluded by the callers). -/
def PoseidonTree.update (t : PoseidonTree) (i : Nat) (v : Hash) : PoseidonTree :=
  { t with leaves := t.leaves.set i v }

/-- Merkle root of a leaf vector at a given depth: leaves combined pairwise
bottom-up with the hash `H`. -/
def treeRoot (H : Hash → Hash → Hash) : Nat → List Hash → Hash
  | 0, l => l.headD 0
  | d + 1, l => H (treeRoot H d (l.take (2 ^ d))) (treeRoot H d (l.drop (2 ^ d)))

/-- `tree.root()`. -/
def PoseidonTree.root (H : Hash → Hash → Hash) (t : PoseidonTree) : Hash :=
  treeRoot H t.depth t.leaves

/-- Which side of the path a proof sibling lies on. -/
inductive Side where
  | left
  | right
deriving DecidableEq

/-- Siblings along the path from leaf `i` to the root, leaf level first,
each paired with its side relative to the path. -/
def treeProofAux (H : Hash → Hash → Hash) : Nat → List Hash → Nat → List (Side × Hash)
  | 0, _, _ => []
  | d + 1, l, i =>
    if i < 2 ^ d then
      treeProofAux H d (l.take (2 ^ d)) i ++ [(Side.right, treeRoot H d (l.drop (2 ^ d)))]
    else
      treeProofAux H d (l.drop (2 ^ d)) (i - 2 ^ d) ++ [(Side.left, treeRoot H d (l.take (2 ^ d)))]

/-- `tree.proof(i)`: the Merkle inclusion path for leaf `i`. -/
def PoseidonTree.proofAt (H : Hash → Hash → Hash) (t : PoseidonTree) (i : Nat) :
    List (Side × Hash) :=
  treeProofAux H t.depth t.leaves i

/-- The server's `InclusionProof` response value. -/
structure InclusionProof where
  root : Hash
  proof : List (Side × Hash)
  message : Option String
deriving DecidableEq

/-- The in-memory state of the World Tree: the current tree, the configured
history capacity, and the cache of historical tree versions (front of the
deque = head of the list = newest). -/
structure TreeData where
  tree : PoseidonTree
  tree_history_size : Nat
  tree_history : List PoseidonTree
deriving DecidableEq

/-- `TreeData::new`: wraps the initial tree; the history starts empty. -/
def TreeData.new (tree : PoseidonTree) (tree_history_size : Nat) : TreeData :=
  { tree := tree, tree_history_size := tree_history_size, tree_history := [] }

/-- `TreeData::cache_tree_history`: if `tree_history_size` is nonzero, pop the
back (oldest) entry when the deque is at capacity, then push a clone of the
current tree at the front. -/
def TreeData.cache_tree_history (td : TreeData) : TreeData :=
  if td.tree_history_size ≠ 0 then
    let hist :=
      if td.tree_history.length = td.tree_history_size then
        td.tree_history.dropLast
      else
        td.tree_history
    { td with tree_history := td.tree :: hist }
  else
    td

/-- The update loop of `TreeData::insert_many_at`: for each `(i, identity)`
in the enumeration of `identities`, update leaf `start_index + i`. -/
def insertLoop (t : PoseidonTree) (start_index : Nat) : List Hash → PoseidonTree
  | [] => t
  | ids :: cs => insertLoop (t.update start_index ids) (start_index + 1) cs

/-- `TreeData::insert_many_at`: cache the tree history, then run the update
loop on the current tree. -/
def TreeData.insert_many_at (td : TreeData) (start_index : Nat) (identities : List Hash) :
    TreeData :=
  let td1 := td.cache_tree_history
  { td1 with tree := insertLoop td1.tree start_index identities }

/-- The update loop of `TreeData::delete_many`: update each listed leaf
to `Hash::ZERO`. -/
def deleteLoop (t : PoseidonTree) : List Nat → PoseidonTree
  | [] => t
  | i :: rest => deleteLoop (t.update i ZERO) rest

/-- `TreeData::delete_many`: cache the tree history, then zero each listed
leaf of the current tree. -/
def TreeData.delete_many (td : TreeData) (delete_indices : List Nat) : TreeData :=
  let td1 := td.cache_tree_history
  { td1 with tree := deleteLoop td1.tree delete_indices }

/-- `TreeData::proof`: position of the first leaf equal to `identity`
(via the `leaves()` iterator), then the Merkle path at that index;
`none` when the identity is absent. -/
def TreeData.proof (H : Hash → Hash → Hash) (t : PoseidonTree) (identity : Hash) :
    Option (List (Side × Hash)) :=
  match t.leaves.findIdx? (fun leaf => leaf == identity) with
  | some idx => some (t.proofAt H idx)
  | none => none

/-- `TreeData::get_inclusion_proof`: with an explicit root equal to the
current root, or with no root, use the current tree; otherwise scan the
history front (newest) to back for a tree with the requested root. A `?` on
the proof lookup propagates `none` for the whole call. -/
def TreeData.get_inclusion_proof (H : Hash → Hash → Hash) (td : TreeData)
    (identity : Hash) (root : Option Hash) : Option InclusionProof :=
  match root with
  | some r =>
    if r = td.tree.root H then
      match TreeData.proof H td.tree identity with
      | some p => some ⟨r, p, none⟩
      | none => none
    else
      match td.tree_history.find? (fun prev_tree => prev_tree.root H == r) with
      | some prev_tree =>
        match TreeData.proof H prev_tree identity with
        | some p => some ⟨r, p, none⟩
        | none => none
      | none => none
  | none =>
    match TreeData.proof H td.tree identity with
    | some p => some ⟨td.tree.root H, p, none⟩
    | none => none

/-- `TreeData::get_inclusion_proof`, with the state the call reads from
threaded through explicitly: every return site of the source rebuilds the
`TreeData` from the fields the call accessed through its read locks. -/
def TreeData.get_inclusion_proof_st (H : Hash → Hash → Hash) (td : TreeData)
    (identity : Hash) (root : Option Hash) : Option InclusionProof × TreeData :=
  let tree := td.tree
  match root with
  | some r =>
    if r = tree.root H then
      match TreeData.proof H tree identity with
      | some p =>
        (some ⟨r, p, none⟩,
          { tree := tree, tree_history_size := td.tree_history_size,
            tree_history := td.tree_history })
      | none =>
        (none,
          { tree := tree, tree_history_size := td.tree_history_size,
            tree_history := td.tree_history })
    else
      let tree_history := td.tree_history
      match tree_history.find? (fun prev_tree => prev_tree.root H == r) with
      | some prev_tree =>
        match TreeData.proof H prev_tree identity with
        | some p =>
          (some ⟨r, p, none⟩,
            { tree := tree, tree_history_size := td.tree_history_size,
              tree_history := tree_history })
        | none =>
          (none,
            { tree := tree, tree_history_size := td.tree_history_size,
              tree_history := tree_history })
      | none =>
        (none,
          { tree := tree, tree_history_size := td.tree_history_size,
            tree_history := tree_history })
  | none =>
    match TreeData.proof H tree identity with
    | some p =>
      (some ⟨tree.root H, p, none⟩,
        { tree := tree, tree_history_size := td.tree_history_size,
          tree_history := td.tree_history })
    | none =>
      (none,
        { tree := tree, tree_history_size := td.tree_history_size,
          tree_history := td.tree_history })

/-- A batch mutation record, as handed to `TreeData` by the chain follower. -/
inductive BatchOp where
  | insert (start_index : Nat) (identities : List Hash)
  | delete (delete_indices : List Nat)
deriving DecidableEq

/-- Apply one batch mutation to a `TreeData`. -/
def TreeData.applyBatch (td : TreeData) : BatchOp → TreeData
  | BatchOp.insert s ids => td.insert_many_at s ids
  | BatchOp.delete i => td.delete_many i

/-- Apply a sequence of batch mutations, oldest first. -/
def TreeData.applyBatches (td : TreeData) (ops : List BatchOp) : TreeData :=
  ops.foldl TreeData.applyBatch td

/-- The per-leaf writes of an insert batch, as the specification words them:
`C[k]` is written at `start_index + k`, in order of `k`. -/
def insertMutations (start_index : Nat) : List Hash → List (Nat × Hash)
  | [] => []
  | x :: xs => (start_index, x) :: insertMutations (start_index + 1) xs

/-- The per-leaf writes of one batch, in order, as the specification words
them: each insert writes `C[k]` at `start_index + k`; each delete writes
zero at the listed index. -/
def BatchOp.mutations : BatchOp → List (Nat × Hash)
  | BatchOp.insert s ids => insertMutations s ids
  | BatchOp.delete i => i.map (fun j => (j, ZERO))

/-- Reference semantics, per the specification: apply the per-leaf writes of
the whole mutation sequence to a bare tree, one leaf at a time, in order. -/
def refApply (t : PoseidonTree) (ops : List BatchOp) : PoseidonTree :=
  (ops.flatMap BatchOp.mutations).foldl (fun t m => t.update m.1 m.2) t

/-! ### Basic lemmas about the operations -/

theorem cache_tree_history_tree (td : TreeData) :
    td.cache_tree_history.tree = td.tree := by
  unfold TreeData.cache_tree_history
  split <;> rfl

theorem cache_tree_history_size (td : TreeData) :
    td.cache_tree_history.tree_history_size = td.tree_history_size := by
  unfold TreeData.cache_tree_history
  split <;> rfl

theorem insert_many_at_tree (td : TreeData) (s : Nat) (ids : List Hash) :
    (td.insert_many_at s ids).tree = insertLoop td.tree s ids := by
  show insertLoop td.cache_tree_history.tree s ids = insertLoop td.tree s ids
  rw [cache_tree_history_tree]

theorem insert_many_at_history (td : TreeData) (s : Nat) (ids : List Hash) :
    (td.insert_many_at s ids).tree_history = td.cache_tree_history.tree_history := rfl

theorem insert_many_at_size (td : TreeData) (s : Nat) (ids : List Hash) :
    (td.insert_many_at s ids).tree_history_size = td.tree_history_size := by
  unfold TreeData.insert_many_at
  rw [cache_tree_history_size]

theorem delete_many_tree (td : TreeData) (i : List Nat) :
    (td.delete_many i).tree = deleteLoop td.tree i := by
  show deleteLoop td.cache_tree_history.tree i = deleteLoop td.tree i
  rw [cache_tree_history_tree]

theorem delete_many_history (td : TreeData) (i : List Nat) :
    (td.delete_many i).tree_history = td.cache_tree_history.tree_history := rfl

theorem delete_many_size (td : TreeData) (i : List Nat) :
    (td.delete_many i).tree_history_size = td.tree_history_size := by
  unfold TreeData.delete_many
  rw [cache_tree_history_size]

theorem insertLoop_eq_foldl (ids : List Hash) :
    ∀ (t : PoseidonTree) (s : Nat),
      insertLoop t s ids =
        (insertMutations s ids).foldl (fun t m => t.update m.1 m.2) t := by
  induction ids with
  | nil => intro t s; rfl
  | cons x xs ih => intro t s; simp [insertLoop, insertMutations, List.foldl, ih]

theorem deleteLoop_eq_foldl (i : List Nat) :
    ∀ (t : PoseidonTree),
      deleteLoop t i =
        (i.map (fun j => (j, ZERO))).foldl (fun t m => t.update m.1 m.2) t := by
  induction i with
  | nil => intro t; rfl
  | cons j js ih => intro t; simp [deleteLoop, List.foldl, ih]

theorem applyBatch_tree (td : TreeData) (op : BatchOp) :
    (td.applyBatch op).tree =
      op.mutations.foldl (fun t m => t.update m.1 m.2) td.tree := by
  cases op with
  | insert s ids =>
    simp [TreeData.applyBatch, BatchOp.mutations, insert_many_at_tree, insertLoop_eq_foldl]
  | delete i =>
    simp [TreeData.applyBatch, BatchOp.mutations, delete_many_tree, deleteLoop_eq_foldl]

theorem applyBatches_tree (ops : List BatchOp) :
    ∀ td : TreeData, (td.applyBatches ops).tree = refApply td.tree ops := by
  induction ops with
  | nil => intro td; rfl
  | cons op rest ih =>
    intro td
    show ((td.applyBatch op).applyBatches rest).tree = refApply td.tree (op :: rest)
    rw [ih, applyBatch_tree]
    simp only [refApply, List.flatMap_cons, List.foldl_append]

/-! ### Pointwise effect of the update loops -/

theorem insertLoop_depth (ids : List Hash) :
    ∀ (t : PoseidonTree) (s : Nat), (insertLoop t s ids).depth = t.depth := by
  induction ids with
  | nil => intro t s; rfl
  | cons x xs ih => intro t s; simpa [insertLoop] using ih (t.update s x) (s + 1)

theorem insertLoop_length (ids : List Hash) :
    ∀ (t : PoseidonTree) (s : Nat),
      (insertLoop t s ids).leaves.length = t.leaves.length := by
  induction ids with
  | nil => intro t s; rfl
  | cons x xs ih =>
    intro t s
    simpa [insertLoop, PoseidonTree.update] using ih (t.update s x) (s + 1)

theorem deleteLoop_depth (idxs : List Nat) :
    ∀ t : PoseidonTree, (deleteLoop t idxs).depth = t.depth := by
  induction idxs with
  | nil => intro t; rfl
  | cons j js ih => intro t; simpa [deleteLoop] using ih (t.update j ZERO)

theorem deleteLoop_length (idxs : List Nat) :
    ∀ t : PoseidonTree, (deleteLoop t idxs).leaves.length = t.leaves.length := by
  induction idxs with
  | nil => intro t; rfl
  | cons j js ih =>
    intro t
    simpa [deleteLoop, PoseidonTree.update] using ih (t.update j ZERO)

theorem insertLoop_getElem_lt (ids : List Hash) :
    ∀ (t : PoseidonTree) (s j : Nat), j < s →
      (insertLoop t s ids).leaves[j]? = t.leaves[j]? := by
  induction ids with
  | nil => intro t s j _; rfl
  | cons x xs ih =>
    intro t s j hj
    rw [insertLoop, ih (t.update s x) (s + 1) j (Nat.lt_succ_of_lt hj)]
    exact List.getElem?_set_ne (Nat.ne_of_gt hj)

theorem insertLoop_getElem_at (ids : List Hash) :
    ∀ (t : PoseidonTree) (s k : Nat), k < ids.length →
      s + ids.length ≤ t.leaves.length →
      (insertLoop t s ids).leaves[s + k]? = ids[k]? := by
  induction ids with
  | nil => intro t s k hk _; exact absurd hk (Nat.not_lt_zero k)
  | cons x xs ih =>
    intro t s k hk hlen
    cases k with
    | zero =>
      rw [Nat.add_zero, insertLoop,
        insertLoop_getElem_lt xs (t.update s x) (s + 1) s (Nat.lt_succ_self s)]
      have hs : s < t.leaves.length := by
        simp only [List.length_cons] at hlen
        omega
      show (t.leaves.set s x)[s]? = (x :: xs)[0]?
      rw [List.getElem?_set_self hs, List.getElem?_cons_zero]
    | succ k' =>
      have h1 : s + (k' + 1) = (s + 1) + k' := by omega
      rw [h1, insertLoop]
      have h2 : (s + 1) + xs.length ≤ (t.update s x).leaves.length := by
        simp only [PoseidonTree.update, List.length_set]
        simp only [List.length_cons] at hlen
        omega
      rw [ih (t.update s x) (s + 1) k' (by simpa using hk) h2,
        List.getElem?_cons_succ]

theorem deleteLoop_getElem (idxs : List Nat) :
    ∀ (t : PoseidonTree) (j : Nat),
      (deleteLoop t idxs).leaves[j]? =
        if j ∈ idxs ∧ j < t.leaves.length then some ZERO else t.leaves[j]? := by
  induction idxs with
  | nil => intro t j; simp [deleteLoop]
  | cons i rest ih =>
    intro t j
    rw [deleteLoop, ih (t.update i ZERO) j]
    simp only [PoseidonTree.update, List.length_set]
    by_cases hl : j < t.leaves.length
    · by_cases hmem : j ∈ rest
      · simp [hmem, hl, List.mem_cons]
      · by_cases hji : j = i
        · subst hji
          simp only [hmem, false_and, if_false, List.mem_cons, true_or, hl,
            and_true, if_true]
          exact List.getElem?_set_self hl
        · simp only [hmem, false_and, if_false, List.mem_cons, hji, false_or,
            hl, and_true]
          rw [List.getElem?_set_ne (fun h => hji h.symm)]
    · simp only [hl, and_false, if_false]
      rw [List.getElem?_eq_none (by simpa using Nat.le_of_not_lt hl),
        List.getElem?_eq_none (Nat.le_of_not_lt hl)]

/-! ### Effect of `cache_tree_history` on the history deque -/

theorem cache_tree_history_zero (td : TreeData) (h : td.tree_history_size = 0) :
    td.cache_tree_history = td := by
  unfold TreeData.cache_tree_history
  simp [h]

theorem cache_tree_history_nonzero (td : TreeData) (h : td.tree_history_size ≠ 0) :
    td.cache_tree_history.tree_history =
      td.tree ::
        (if td.tree_history.length = td.tree_history_size then td.tree_history.dropLast
          else td.tree_history) := by
  unfold TreeData.cache_tree_history
  simp [h]

theorem cache_tree_history_length (td : TreeData) (h : td.tree_history_size ≠ 0) :
    td.cache_tree_history.tree_history.length =
      if td.tree_history.length = td.tree_history_size then td.tree_history_size
      else td.tree_history.length + 1 := by
  rw [cache_tree_history_nonzero td h]
  by_cases hfull : td.tree_history.length = td.tree_history_size
  · have hpos : td.tree_history.length ≠ 0 := by omega
    simp [hfull, List.length_dropLast]
    omega
  · simp [hfull]

/-- Claim C1: after any sequence of `insert_many_at` and `delete_many`
batches, the current tree's root equals the root of a reference tree that
applied the same per-leaf writes, one leaf at a time, in the same order
(`C[k]` at `start_index + k` for inserts, zero at each deleted index). -/
theorem spec_C1_snapshot_fidelity (H : Hash → Hash → Hash) (t0 : PoseidonTree)
    (size : Nat) (ops : List BatchOp) :
    ((TreeData.new t0 size).applyBatches ops).tree.root H =
      (refApply t0 ops).root H := by
  rw [applyBatches_tree]
  rfl

theorem PoseidonTree.eq_of (t1 t2 : PoseidonTree) (h1 : t1.depth = t2.depth)
    (h2 : t1.leaves = t2.leaves) : t1 = t2 := by
  cases t1
  cases t2
  cases h1
  cases h2
  rfl

/-- Claim C2 (amended): when `tree_history_size ≠ 0`, `insert_many_at(s, C)`
first snapshots the pre-batch tree into the history exactly once (it becomes
the front entry, and the history grows by exactly one entry, capped at the
capacity); when `tree_history_size = 0` no snapshot is captured and the
history is unchanged. In both cases leaf `s + k` is then set to `C[k]` for
every `k`. -/
theorem spec_C2_insert_batch_effect (td : TreeData) (s : Nat) (ids : List Hash)
    (hrange : s + ids.length ≤ td.tree.leaves.length) :
    (∀ k, k < ids.length →
      (td.insert_many_at s ids).tree.leaves[s + k]? = ids[k]?) ∧
    (td.tree_history_size ≠ 0 →
      (td.insert_many_at s ids).tree_history.head? = some td.tree ∧
      (td.insert_many_at s ids).tree_history.length =
        if td.tree_history.length = td.tree_history_size then td.tree_history_size
        else td.tree_history.length + 1) ∧
    (td.tree_history_size = 0 →
      (td.insert_many_at s ids).tree_history = td.tree_history) := by
  refine ⟨?_, ?_, ?_⟩
  · intro k hk
    rw [insert_many_at_tree]
    exact insertLoop_getElem_at ids td.tree s k hk hrange
  · intro hnz
    rw [insert_many_at_history]
    constructor
    · rw [cache_tree_history_nonzero td hnz]
      rfl
    · exact cache_tree_history_length td hnz
  · intro hz
    rw [insert_many_at_history, cache_tree_history_zero td hz]

/-- Claim C2 counterexample: with `tree_history_size = 0`, an
`insert_many_at` call captures no snapshot at all — the history stays
empty, refuting "snapshots the current tree into history exactly once"
for every `TreeData` state (the leaf writes do happen). -/
theorem spec_C2_counterexample :
    ((TreeData.new ⟨1, [0, 0]⟩ 0).insert_many_at 0 [5]).tree_history = [] ∧
    ((TreeData.new ⟨1, [0, 0]⟩ 0).insert_many_at 0 [5]).tree.leaves = [5, 0] :=
  ⟨rfl, rfl⟩

/-- Witness for the amended C2 at a concrete input. -/
theorem spec_C2_insert_batch_effect_witness :
    ((TreeData.new ⟨1, [0, 0]⟩ 1).insert_many_at 0 [5, 7]).tree_history.head? =
        some ⟨1, [0, 0]⟩ ∧
    ((TreeData.new ⟨1, [0, 0]⟩ 1).insert_many_at 0 [5, 7]).tree.leaves[0]? = some 5 :=
  ⟨((spec_C2_insert_batch_effect (TreeData.new ⟨1, [0, 0]⟩ 1) 0 [5, 7]
      (by decide)).2.1 (by decide)).1,
    by
      have h := (spec_C2_insert_batch_effect (TreeData.new ⟨1, [0, 0]⟩ 1) 0 [5, 7]
        (by decide)).1 0 (by decide)
      simpa using h⟩

/-- Claim C7 (amended): `delete_many(I)` zeroes exactly the listed in-range
leaves (so duplicates are idempotent and the result depends only on the set
of listed indices), and deleting already-zero leaves leaves the tree
contents unchanged; when `tree_history_size ≠ 0` one snapshot per batch is
pushed, while with `tree_history_size = 0` no snapshot is captured and the
history is unchanged. -/
theorem spec_C7_delete_batch_effect (td : TreeData) (idxs : List Nat) :
    (∀ j, (td.delete_many idxs).tree.leaves[j]? =
      if j ∈ idxs ∧ j < td.tree.leaves.length then some ZERO
      else td.tree.leaves[j]?) ∧
    ((td.delete_many (idxs ++ idxs)).tree = (td.delete_many idxs).tree) ∧
    (td.tree_history_size ≠ 0 →
      (td.delete_many idxs).tree_history.head? = some td.tree ∧
      (td.delete_many idxs).tree_history.length =
        if td.tree_history.length = td.tree_history_size then td.tree_history_size
        else td.tree_history.length + 1) ∧
    (td.tree_history_size = 0 →
      (td.delete_many idxs).tree_history = td.tree_history) ∧
    ((∀ i ∈ idxs, td.tree.leaves[i]? = some ZERO) →
      (td.delete_many idxs).tree = td.tree) := by
  refine ⟨?_, ?_, ?_, ?_, ?_⟩
  · intro j
    rw [delete_many_tree]
    exact deleteLoop_getElem idxs td.tree j
  · rw [delete_many_tree, delete_many_tree]
    refine PoseidonTree.eq_of _ _ ?_ ?_
    · rw [deleteLoop_depth, deleteLoop_depth]
    · refine List.ext_getElem? fun j => ?_
      rw [deleteLoop_getElem, deleteLoop_getElem]
      by_cases hmem : j ∈ idxs
      · simp [hmem]
      · simp [hmem]
  · intro hnz
    rw [delete_many_history]
    constructor
    · rw [cache_tree_history_nonzero td hnz]
      rfl
    · exact cache_tree_history_length td hnz
  · intro hz
    rw [delete_many_history, cache_tree_history_zero td hz]
  · intro hzero
    rw [delete_many_tree]
    refine PoseidonTree.eq_of _ _ (deleteLoop_depth idxs td.tree) ?_
    refine List.ext_getElem? fun j => ?_
    rw [deleteLoop_getElem]
    by_cases hc : j ∈ idxs ∧ j < td.tree.leaves.length
    · rw [if_pos hc, hzero j hc.1]
    · rw [if_neg hc]

/-- Claim C7 counterexample: with `tree_history_size = 0`, a `delete_many`
call (here deleting an already-zero leaf, which indeed leaves the contents
unchanged) captures no history snapshot at all, refuting "still producing
one history snapshot per batch" for every `TreeData` state. -/
theorem spec_C7_counterexample :
    ((TreeData.new ⟨1, [4, 0]⟩ 0).delete_many [1]).tree_history = [] ∧
    ((TreeData.new ⟨1, [4, 0]⟩ 0).delete_many [1]).tree.leaves = [4, 0] :=
  ⟨rfl, rfl⟩

/-- Witness for the amended C7 at a concrete input (with a duplicated
index). -/
theorem spec_C7_delete_batch_effect_witness :
    ((TreeData.new ⟨1, [4, 6]⟩ 2).delete_many [1, 1]).tree_history.head? =
        some ⟨1, [4, 6]⟩ ∧
    ((TreeData.new ⟨1, [4, 6]⟩ 2).delete_many [1, 1]).tree.leaves[1]? =
        some ZERO :=
  ⟨((spec_C7_delete_batch_effect (TreeData.new ⟨1, [4, 6]⟩ 2) [1, 1]).2.2.1
      (by decide)).1,
    by
      have h := (spec_C7_delete_batch_effect (TreeData.new ⟨1, [4, 6]⟩ 2)
        [1, 1]).1 1
      simpa using h⟩

/-! ### History bound -/

theorem cache_tree_history_le (td : TreeData)
    (h : td.tree_history.length ≤ td.tree_history_size) :
    td.cache_tree_history.tree_history.length ≤ td.tree_history_size := by
  by_cases hz : td.tree_history_size = 0
  · rw [cache_tree_history_zero td hz]
    exact h
  · rw [cache_tree_history_length td hz]
    by_cases hfull : td.tree_history.length = td.tree_history_size
    · simp [hfull]
    · rw [if_neg hfull]
      omega

theorem applyBatch_size (td : TreeData) (op : BatchOp) :
    (td.applyBatch op).tree_history_size = td.tree_history_size := by
  cases op with
  | insert s ids => exact insert_many_at_size td s ids
  | delete idxs => exact delete_many_size td idxs

theorem applyBatch_history_le (td : TreeData) (op : BatchOp)
    (h : td.tree_history.length ≤ td.tree_history_size) :
    (td.applyBatch op).tree_history.length ≤ (td.applyBatch op).tree_history_size := by
  rw [applyBatch_size]
  cases op with
  | insert s ids =>
    show (td.insert_many_at s ids).tree_history.length ≤ td.tree_history_size
    rw [insert_many_at_history]
    exact cache_tree_history_le td h
  | delete idxs =>
    show (td.delete_many idxs).tree_history.length ≤ td.tree_history_size
    rw [delete_many_history]
    exact cache_tree_history_le td h

theorem applyBatches_history_le (ops : List BatchOp) :
    ∀ td : TreeData, td.tree_history.length ≤ td.tree_history_size →
      (td.applyBatches ops).tree_history.length ≤
        (td.applyBatches ops).tree_history_size := by
  induction ops with
  | nil => intro td h; exact h
  | cons op rest ih =>
    intro td h
    exact ih (td.applyBatch op) (applyBatch_history_le td op h)

theorem applyBatches_size (ops : List BatchOp) :
    ∀ td : TreeData, (td.applyBatches ops).tree_history_size = td.tree_history_size := by
  induction ops with
  | nil => intro td; rfl
  | cons op rest ih =>
    intro td
    rw [show td.applyBatches (op :: rest) = (td.applyBatch op).applyBatches rest from rfl,
      ih (td.applyBatch op), applyBatch_size]

/-- Claim C5: along any batch sequence from a fresh `TreeData` the history
never holds more than `tree_history_size` snapshots, and a snapshot taken
while the history is at capacity evicts the oldest (back) entry. -/
theorem spec_C5_history_bound (t0 : PoseidonTree) (size : Nat)
    (ops : List BatchOp) (td : TreeData) :
    ((TreeData.new t0 size).applyBatches ops).tree_history.length ≤ size ∧
    (td.tree_history_size ≠ 0 → td.tree_history.length = td.tree_history_size →
      td.cache_tree_history.tree_history = td.tree :: td.tree_history.dropLast) := by
  constructor
  · have h := applyBatches_history_le ops (TreeData.new t0 size)
      (by simp [TreeData.new])
    rwa [applyBatches_size ops (TreeData.new t0 size)] at h
  · intro hnz hfull
    rw [cache_tree_history_nonzero td hnz, if_pos hfull]

/-- Witness for C5 at a concrete input: one batch retains one snapshot
within the bound, and caching at capacity evicts the back entry. -/
theorem spec_C5_history_bound_witness :
    ((TreeData.new ⟨1, [0, 0]⟩ 1).applyBatches
      [BatchOp.insert 0 [5]]).tree_history.length ≤ 1 ∧
    ((TreeData.new ⟨1, [0, 0]⟩ 1).applyBatches
        [BatchOp.insert 0 [5]]).cache_tree_history.tree_history =
      ((TreeData.new ⟨1, [0, 0]⟩ 1).applyBatches
        [BatchOp.insert 0 [5]]).tree ::
      ((TreeData.new ⟨1, [0, 0]⟩ 1).applyBatches
        [BatchOp.insert 0 [5]]).tree_history.dropLast :=
  ⟨(spec_C5_history_bound ⟨1, [0, 0]⟩ 1 [BatchOp.insert 0 [5]]
      (TreeData.new ⟨1, [0, 0]⟩ 1)).1,
    (spec_C5_history_bound ⟨1, [0, 0]⟩ 1 []
      ((TreeData.new ⟨1, [0, 0]⟩ 1).applyBatches
        [BatchOp.insert 0 [5]])).2 (by decide) (by decide)⟩

/-- Claim C9: a freshly constructed `TreeData` has an empty history, so
before any mutation a query naming any root other than the current root
returns `none`, whatever `tree_history_size` was configured. -/
theorem spec_C9_fresh_state (H : Hash → Hash → Hash) (t0 : PoseidonTree)
    (size : Nat) (identity r : Hash)
    (hr : r ≠ (TreeData.new t0 size).tree.root H) :
    (TreeData.new t0 size).tree_history = [] ∧
    (TreeData.new t0 size).get_inclusion_proof H identity (some r) = none := by
  refine ⟨rfl, ?_⟩
  unfold TreeData.get_inclusion_proof
  simp only [TreeData.new] at hr ⊢
  rw [if_neg hr]
  simp

/-- Witness for C9 at a concrete input. -/
theorem spec_C9_fresh_state_witness :
    (TreeData.new ⟨1, [0, 0]⟩ 3).tree_history = [] ∧
    (TreeData.new ⟨1, [0, 0]⟩ 3).get_inclusion_proof Nat.pair 0 (some 1) = none :=
  spec_C9_fresh_state Nat.pair ⟨1, [0, 0]⟩ 3 0 1 (by decide)

/-- Claim C10: a query never mutates the state: threading the state through
every return site of `get_inclusion_proof` gives back exactly the input
`TreeData` (current tree and full history, contents and order), and the
same result as the direct reading, whether or not a proof is found. -/
theorem spec_C10_query_frame (H : Hash → Hash → Hash) (td : TreeData)
    (identity : Hash) (root : Option Hash) :
    (td.get_inclusion_proof_st H identity root).2 = td ∧
    (td.get_inclusion_proof_st H identity root).1 =
      td.get_inclusion_proof H identity root := by
  obtain ⟨tree, size, hist⟩ := td
  cases root with
  | none =>
    cases hp : TreeData.proof H tree identity <;>
      simp [TreeData.get_inclusion_proof_st, TreeData.get_inclusion_proof, hp]
  | some r =>
    by_cases hr : r = tree.root H
    · cases hp : TreeData.proof H tree identity <;>
        simp [TreeData.get_inclusion_proof_st, TreeData.get_inclusion_proof, hr, hp]
    · cases hf : hist.find? (fun prev_tree => prev_tree.root H == r) with
      | none =>
        simp [TreeData.get_inclusion_proof_st, TreeData.get_inclusion_proof, hr, hf]
      | some pt =>
        cases hp : TreeData.proof H pt identity <;>
          simp [TreeData.get_inclusion_proof_st, TreeData.get_inclusion_proof,
            hr, hf, hp]

/-! ### Characterising the identity lookup -/

theorem proof_eq_none_of_not_mem (H : Hash → Hash → Hash) (t : PoseidonTree)
    (identity : Hash) (h : ∀ x ∈ t.leaves, x ≠ identity) :
    TreeData.proof H t identity = none := by
  unfold TreeData.proof
  have hf : t.leaves.findIdx? (fun leaf => leaf == identity) = none := by
    rw [List.findIdx?_eq_none_iff]
    intro x hx
    simpa using h x hx
  rw [hf]

theorem findIdx_first (l : List Hash) (identity : Hash) (i : Nat)
    (hi : l[i]? = some identity)
    (hmin : ∀ j, j < i → l[j]? ≠ some identity) :
    l.findIdx? (fun leaf => leaf == identity) = some i := by
  rw [List.findIdx?_eq_some_iff_getElem]
  obtain ⟨hlen, hget⟩ := List.getElem?_eq_some.mp hi
  refine ⟨hlen, by simp [hget], ?_⟩
  intro j hj
  have hjlen : j < l.length := Nat.lt_trans hj hlen
  have hne := hmin j hj
  rw [List.getElem?_eq_getElem hjlen] at hne
  intro hc
  exact hne (congrArg some (eq_of_beq hc))

theorem proof_eq_some_first (H : Hash → Hash → Hash) (t : PoseidonTree)
    (identity : Hash) (i : Nat)
    (hi : t.leaves[i]? = some identity)
    (hmin : ∀ j, j < i → t.leaves[j]? ≠ some identity) :
    TreeData.proof H t identity = some (t.proofAt H i) := by
  unfold TreeData.proof
  rw [findIdx_first t.leaves identity i hi hmin]

/-- Claim C3: a query with no requested root — equivalently, with the
current root requested — is served from the current tree: if some leaf
equals the identity, the result is the current root together with the proof
at the lowest index holding the identity and no message; if no leaf equals
the identity, the result is `none`. -/
theorem spec_C3_current_root_query (H : Hash → Hash → Hash) (td : TreeData)
    (identity : Hash) :
    (td.get_inclusion_proof H identity none =
      td.get_inclusion_proof H identity (some (td.tree.root H))) ∧
    ((∀ x ∈ td.tree.leaves, x ≠ identity) →
      td.get_inclusion_proof H identity none = none) ∧
    (∀ i, td.tree.leaves[i]? = some identity →
      (∀ j, j < i → td.tree.leaves[j]? ≠ some identity) →
      td.get_inclusion_proof H identity none =
        some ⟨td.tree.root H, td.tree.proofAt H i, none⟩) := by
  refine ⟨?_, ?_, ?_⟩
  · cases hp : TreeData.proof H td.tree identity <;>
      simp [TreeData.get_inclusion_proof, hp]
  · intro habs
    have hp := proof_eq_none_of_not_mem H td.tree identity habs
    simp [TreeData.get_inclusion_proof, hp]
  · intro i hi hmin
    have hp := proof_eq_some_first H td.tree identity i hi hmin
    simp [TreeData.get_inclusion_proof, hp]

/-- Witness for C3 at a concrete input: the identity occurs at both leaves,
and the lowest index (0) is used; an absent identity yields `none`. -/
theorem spec_C3_current_root_query_witness :
    (TreeData.new ⟨1, [4, 4]⟩ 2).get_inclusion_proof Nat.pair 9 none = none ∧
    (TreeData.new ⟨1, [4, 4]⟩ 2).get_inclusion_proof Nat.pair 4 none =
      some ⟨(⟨1, [4, 4]⟩ : PoseidonTree).root Nat.pair,
        (⟨1, [4, 4]⟩ : PoseidonTree).proofAt Nat.pair 0, none⟩ :=
  ⟨(spec_C3_current_root_query Nat.pair (TreeData.new ⟨1, [4, 4]⟩ 2) 9).2.1
      (by decide),
    (spec_C3_current_root_query Nat.pair (TreeData.new ⟨1, [4, 4]⟩ 2) 4).2.2 0
      (by decide) (fun j hj => absurd hj (Nat.not_lt_zero j))⟩

/-! ### Characterising the history scan -/

theorem find_first (l : List PoseidonTree) (p : PoseidonTree → Bool) :
    ∀ (k : Nat) (hk : k < l.length), p (l.get ⟨k, hk⟩) →
      (∀ (j : Nat) (hj : j < l.length), j < k → ¬ p (l.get ⟨j, hj⟩)) →
      l.find? p = some (l.get ⟨k, hk⟩) := by
  induction l with
  | nil => intro k hk; exact absurd hk (by simp)
  | cons a rest ih =>
    intro k hk hp hmin
    cases k with
    | zero => exact List.find?_cons_of_pos rest hp
    | succ k2 =>
      have ha : ¬ p a := hmin 0 (by simp) (Nat.succ_pos k2)
      rw [List.find?_cons_of_neg rest ha]
      exact ih k2 (by simpa using hk) hp
        (fun j hj hjk => hmin (j + 1) (by simpa using hj) (by omega))

/-- Claim C4: a query naming a root `r` other than the current root scans
the history newest (front) to oldest and serves the proof from the first
snapshot whose root is `r`; if no retained snapshot has root `r` the query
returns `none`. -/
theorem spec_C4_historical_root_query (H : Hash → Hash → Hash) (td : TreeData)
    (identity r : Hash) (hne : r ≠ td.tree.root H) :
    ((∀ t ∈ td.tree_history, t.root H ≠ r) →
      td.get_inclusion_proof H identity (some r) = none) ∧
    (∀ (k : Nat) (hk : k < td.tree_history.length),
      (td.tree_history.get ⟨k, hk⟩).root H = r →
      (∀ (j : Nat) (hj : j < td.tree_history.length), j < k →
        (td.tree_history.get ⟨j, hj⟩).root H ≠ r) →
      td.get_inclusion_proof H identity (some r) =
        match TreeData.proof H (td.tree_history.get ⟨k, hk⟩) identity with
        | some p => some ⟨r, p, none⟩
        | none => none) := by
  constructor
  · intro habs
    have hf : td.tree_history.find? (fun prev_tree => prev_tree.root H == r) = none := by
      rw [List.find?_eq_none]
      intro t ht
      simpa using habs t ht
    simp only [TreeData.get_inclusion_proof]
    rw [if_neg hne, hf]
  · intro k hk hroot hmin
    simp only [TreeData.get_inclusion_proof]
    rw [if_neg hne, find_first td.tree_history _ k hk (by simpa using hroot)
      (fun j hj hjk => by simpa using hmin j hj hjk)]

/-- Witness for C4 at a concrete input: after two single-leaf insert
batches the older pre-image root sits at history position 1 (the newer
snapshot has a different root), and the query is served from it. -/
theorem spec_C4_historical_root_query_witness :
    ((((TreeData.new ⟨1, [0, 0]⟩ 2).applyBatches
      [BatchOp.insert 0 [5], BatchOp.insert 1 [7]]).get_inclusion_proof
        Nat.pair 0 (some 0)).isSome = true) ∧
    ((((TreeData.new ⟨1, [0, 0]⟩ 2).applyBatches
      [BatchOp.insert 0 [5], BatchOp.insert 1 [7]]).get_inclusion_proof
        Nat.pair 0 (some 99)) = none) := by
  constructor
  · rw [(spec_C4_historical_root_query Nat.pair
      ((TreeData.new ⟨1, [0, 0]⟩ 2).applyBatches
        [BatchOp.insert 0 [5], BatchOp.insert 1 [7]])
      0 0 (by decide)).2 1 (by decide) (by decide) (by decide)]
    decide
  · exact (spec_C4_historical_root_query Nat.pair
      ((TreeData.new ⟨1, [0, 0]⟩ 2).applyBatches
        [BatchOp.insert 0 [5], BatchOp.insert 1 [7]])
      0 99 (by decide)).1 (by decide)

/-! ### Root injectivity for collision-free hashes, and shape preservation -/

theorem treeRoot_inj (H : Hash → Hash → Hash)
    (hinj : ∀ a b a2 b2, H a b = H a2 b2 → a = a2 ∧ b = b2) :
    ∀ (d : Nat) (l1 l2 : List Hash), l1.length = 2 ^ d → l2.length = 2 ^ d →
      treeRoot H d l1 = treeRoot H d l2 → l1 = l2 := by
  intro d
  induction d with
  | zero =>
    intro l1 l2 h1 h2 hr
    obtain ⟨a, rfl⟩ := List.length_eq_one.mp (by simpa using h1)
    obtain ⟨b, rfl⟩ := List.length_eq_one.mp (by simpa using h2)
    simpa [treeRoot] using hr
  | succ d ih =>
    intro l1 l2 h1 h2 hr
    rw [treeRoot, treeRoot] at hr
    obtain ⟨hL, hR⟩ := hinj _ _ _ _ hr
    have hle : (2 : Nat) ^ d ≤ 2 ^ (d + 1) :=
      Nat.pow_le_pow_right (by norm_num) (Nat.le_succ d)
    have e1 : l1.take (2 ^ d) = l2.take (2 ^ d) := by
      refine ih _ _ ?_ ?_ hL
      · rw [List.length_take, h1, pow_succ]
        omega
      · rw [List.length_take, h2, pow_succ]
        omega
    have e2 : l1.drop (2 ^ d) = l2.drop (2 ^ d) := by
      refine ih _ _ ?_ ?_ hR
      · rw [List.length_drop, h1, pow_succ]
        omega
      · rw [List.length_drop, h2, pow_succ]
        omega
    rw [← List.take_append_drop (2 ^ d) l1, ← List.take_append_drop (2 ^ d) l2,
      e1, e2]

theorem applyBatch_tree_depth (td : TreeData) (op : BatchOp) :
    (td.applyBatch op).tree.depth = td.tree.depth := by
  cases op with
  | insert s ids =>
    show (td.insert_many_at s ids).tree.depth = td.tree.depth
    rw [insert_many_at_tree, insertLoop_depth]
  | delete idxs =>
    show (td.delete_many idxs).tree.depth = td.tree.depth
    rw [delete_many_tree, deleteLoop_depth]

theorem applyBatch_tree_length (td : TreeData) (op : BatchOp) :
    (td.applyBatch op).tree.leaves.length = td.tree.leaves.length := by
  cases op with
  | insert s ids =>
    show (td.insert_many_at s ids).tree.leaves.length = td.tree.leaves.length
    rw [insert_many_at_tree, insertLoop_length]
  | delete idxs =>
    show (td.delete_many idxs).tree.leaves.length = td.tree.leaves.length
    rw [delete_many_tree, deleteLoop_length]

theorem applyBatch_history_cons (td : TreeData) (op : BatchOp)
    (h : td.tree_history_size ≠ 0) :
    (td.applyBatch op).tree_history =
      td.tree ::
        (if td.tree_history.length = td.tree_history_size then
          td.tree_history.dropLast
        else td.tree_history) := by
  cases op with
  | insert s ids =>
    show (td.insert_many_at s ids).tree_history = _
    rw [insert_many_at_history, cache_tree_history_nonzero td h]
  | delete idxs =>
    show (td.delete_many idxs).tree_history = _
    rw [delete_many_history, cache_tree_history_nonzero td h]

theorem findIdx_isSome_of_mem (l : List Hash) (identity : Hash)
    (h : identity ∈ l) :
    ∃ i, l.findIdx? (fun leaf => leaf == identity) = some i := by
  have hs : (l.findIdx? (fun leaf => leaf == identity)).isSome = true := by
    rw [List.findIdx?_isSome, List.any_eq_true]
    exact ⟨identity, h, by simp⟩
  exact Option.isSome_iff_exists.mp hs

theorem proof_isSome_of_mem (H : Hash → Hash → Hash) (t : PoseidonTree)
    (identity : Hash) (h : identity ∈ t.leaves) :
    ∃ p, TreeData.proof H t identity = some p := by
  obtain ⟨i, hi⟩ := findIdx_isSome_of_mem t.leaves identity h
  refine ⟨t.proofAt H i, ?_⟩
  unfold TreeData.proof
  rw [hi]

/-- Claim C6: for a collision-free hash, a well-formed current tree, an
identity present in it, and `tree_history_size ≥ 1`, applying one batch
leaves the pre-batch tree at the front of the history, and a query naming
the pre-batch root succeeds (so the pre-batch root stays queryable at least
until the next batch caches again). -/
theorem spec_C6_preimage_queryable (H : Hash → Hash → Hash)
    (hinj : ∀ a b a2 b2, H a b = H a2 b2 → a = a2 ∧ b = b2)
    (td : TreeData) (op : BatchOp) (identity : Hash)
    (hwf : td.tree.leaves.length = 2 ^ td.tree.depth)
    (hsz : 1 ≤ td.tree_history_size)
    (hmem : identity ∈ td.tree.leaves) :
    (td.applyBatch op).tree_history.head? = some td.tree ∧
    ((td.applyBatch op).get_inclusion_proof H identity
      (some (td.tree.root H))).isSome = true := by
  have hnz : td.tree_history_size ≠ 0 := by omega
  have hcons := applyBatch_history_cons td op hnz
  constructor
  · rw [hcons]
    rfl
  · simp only [TreeData.get_inclusion_proof]
    by_cases hr : td.tree.root H = (td.applyBatch op).tree.root H
    · rw [if_pos hr]
      have hd := applyBatch_tree_depth td op
      have hl := applyBatch_tree_length td op
      have hroots : treeRoot H td.tree.depth td.tree.leaves =
          treeRoot H td.tree.depth (td.applyBatch op).tree.leaves := by
        have hx := hr
        unfold PoseidonTree.root at hx
        rw [hd] at hx
        exact hx
      have hleq : td.tree.leaves = (td.applyBatch op).tree.leaves :=
        treeRoot_inj H hinj td.tree.depth _ _ hwf (by rw [hl, hwf]) hroots
      obtain ⟨p, hp⟩ := proof_isSome_of_mem H (td.applyBatch op).tree identity
        (hleq ▸ hmem)
      rw [hp]
      rfl
    · rw [if_neg hr, hcons, List.find?_cons_of_pos _ (by simp)]
      obtain ⟨p, hp⟩ := proof_isSome_of_mem H td.tree identity hmem
      simp [hp]

/-- Witness for C6 at a concrete input, with the injective pairing function
standing in for the collision-resistant Poseidon hash. -/
theorem spec_C6_preimage_queryable_witness :
    ((TreeData.new ⟨1, [4, 6]⟩ 1).applyBatch
      (BatchOp.insert 0 [9])).tree_history.head? = some ⟨1, [4, 6]⟩ ∧
    (((TreeData.new ⟨1, [4, 6]⟩ 1).applyBatch
      (BatchOp.insert 0 [9])).get_inclusion_proof Nat.pair 4
        (some ((⟨1, [4, 6]⟩ : PoseidonTree).root Nat.pair))).isSome = true :=
  spec_C6_preimage_queryable Nat.pair
    (fun a b a2 b2 h => Nat.pair_eq_pair.mp h)
    (TreeData.new ⟨1, [4, 6]⟩ 1) (BatchOp.insert 0 [9]) 4
    (by decide) (by decide) (by decide)

theorem headD_mem {α : Type} (l : List α) (d : α) (h : l ≠ []) :
    l.headD d ∈ l := by
  cases l with
  | nil => exact absurd rfl h
  | cons a rest => simp

/-- Claim C8 counterexample: with capacity 1 and the injective pairing
function as the hash, the all-zero root 0 enters the history at the first
batch and is evicted at the second; after a third batch (whose pre-image is
again the all-zero tree) the history again holds a tree with root 0, the
current root differs from 0, and a query naming root 0 succeeds — refuting
"once a root has been evicted, no later query naming it succeeds". -/
theorem spec_C8_counterexample :
    (((TreeData.new ⟨1, [0, 0]⟩ 1).applyBatches
      [BatchOp.insert 0 [5]]).tree_history.map
        (fun t => t.root Nat.pair) = [0]) ∧
    (((TreeData.new ⟨1, [0, 0]⟩ 1).applyBatches
      [BatchOp.insert 0 [5], BatchOp.delete [0]]).tree_history.map
        (fun t => t.root Nat.pair) = [30]) ∧
    (((TreeData.new ⟨1, [0, 0]⟩ 1).applyBatches
      [BatchOp.insert 0 [5], BatchOp.delete [0],
        BatchOp.insert 0 [7]]).tree.root Nat.pair ≠ 0) ∧
    ((((TreeData.new ⟨1, [0, 0]⟩ 1).applyBatches
      [BatchOp.insert 0 [5], BatchOp.delete [0],
        BatchOp.insert 0 [7]]).get_inclusion_proof Nat.pair 0
          (some 0)).isSome = true) := by
  decide

/-- Claim C8 (amended): queryability of a root is determined by the current
state alone — a root that is neither the current root nor the root of any
retained snapshot yields `none` for every identity (so an evicted root is
unqueryable only until it re-enters the history or becomes current again),
and a root held by some retained snapshot is queryable: some identity's
query succeeds. -/
theorem spec_C8_root_queryability (H : Hash → Hash → Hash) (td : TreeData)
    (r : Hash) :
    (r ≠ td.tree.root H → (∀ t ∈ td.tree_history, t.root H ≠ r) →
      ∀ identity, td.get_inclusion_proof H identity (some r) = none) ∧
    ((∃ t ∈ td.tree_history, t.root H = r) →
      td.tree.leaves ≠ [] →
      (∀ t ∈ td.tree_history, t.leaves ≠ []) →
      ∃ identity, (td.get_inclusion_proof H identity (some r)).isSome = true) := by
  constructor
  · intro hne habs identity
    have hf : td.tree_history.find?
        (fun prev_tree => prev_tree.root H == r) = none := by
      rw [List.find?_eq_none]
      intro t ht
      simpa using habs t ht
    simp only [TreeData.get_inclusion_proof]
    rw [if_neg hne, hf]
  · intro hex hcur hall
    by_cases hr : r = td.tree.root H
    · refine ⟨td.tree.leaves.headD 0, ?_⟩
      obtain ⟨p, hp⟩ := proof_isSome_of_mem H td.tree _
        (headD_mem td.tree.leaves 0 hcur)
      simp only [TreeData.get_inclusion_proof]
      rw [if_pos hr, hp]
      rfl
    · have hfs : (td.tree_history.find?
          (fun prev_tree => prev_tree.root H == r)).isSome = true := by
        obtain ⟨t, ht, hrt⟩ := hex
        exact List.find?_isSome.mpr ⟨t, ht, by simp [hrt]⟩
      obtain ⟨t2, ht2⟩ := Option.isSome_iff_exists.mp hfs
      have ht2mem := List.mem_of_find?_eq_some ht2
      refine ⟨t2.leaves.headD 0, ?_⟩
      obtain ⟨p, hp⟩ := proof_isSome_of_mem H t2 _
        (headD_mem t2.leaves 0 (hall t2 ht2mem))
      simp only [TreeData.get_inclusion_proof]
      rw [if_neg hr, ht2]
      show (match TreeData.proof H t2 (t2.leaves.headD 0) with
        | some p => some (⟨r, p, none⟩ : InclusionProof)
        | none => none).isSome = true
      rw [hp]
      rfl

/-- Witness for the amended C8 at a concrete input: a root absent from both
the current tree and the history is unqueryable. -/
theorem spec_C8_root_queryability_witness :
    (((TreeData.new ⟨1, [0, 0]⟩ 1).applyBatches
      [BatchOp.insert 0 [5], BatchOp.delete [0]]).get_inclusion_proof
        Nat.pair 3 (some 99)) = none :=
  (spec_C8_root_queryability Nat.pair
    ((TreeData.new ⟨1, [0, 0]⟩ 1).applyBatches
      [BatchOp.insert 0 [5], BatchOp.delete [0]]) 99).1
    (by decide) (by decide) 3

end WorldTree
